import Mathlib

/-!
Verification of the cryptocurrency market-data MCP server core
(`mainserver.py`): data models, cache manager, single-exchange read
paths, multi-exchange fan-out, price statistics and observability
counters, shallowly embedded in Lean.

Conventions of the embedding:
* Python floats are modelled as `ℚ` (exact arithmetic); the square root
  in the volatility computation is modelled over `ℝ` via `Real.sqrt`.
* Upstream CCXT calls (`fetch_ticker`, `fetch_ohlcv`, `fetch_order_book`,
  exchange resolution and market loading) are modelled as explicit
  outcome parameters of type `Except Fault _`: the engine code is pure
  in everything except these calls.
* The MD5 hex digest applied to the cache-key string is modelled as the
  identity embedding of the key string (an injective content address);
  the cache-key theorems treat the digest as an abstract function.
-/

/-- The five supported exchanges (`Exchange(str, Enum)` in the source). -/
inductive Exchange where
  | binance
  | coinbase
  | kraken
  | bitfinex
  | huobi
deriving DecidableEq, Repr

/-- The `.value` string of each `Exchange` enum member. -/
def Exchange.value : Exchange → String
  | .binance => "binance"
  | .coinbase => "coinbase"
  | .kraken => "kraken"
  | .bitfinex => "bitfinex"
  | .huobi => "huobi"

/-- Supported timeframes (`TimeFrame(str, Enum)` in the source). -/
inductive TimeFrame where
  | m1
  | m5
  | m15
  | m30
  | h1
  | h4
  | d1
  | w1
  | mo1
deriving DecidableEq, Repr

/-- The `.value` string of each `TimeFrame` enum member. -/
def TimeFrame.value : TimeFrame → String
  | .m1 => "1m"
  | .m5 => "5m"
  | .m15 => "15m"
  | .m30 => "30m"
  | .h1 => "1h"
  | .h4 => "4h"
  | .d1 => "1d"
  | .w1 => "1w"
  | .mo1 => "1M"

/-- Ticker data model (`TickerData`). -/
structure TickerData where
  symbol : String
  exchange : String
  timestamp : ℚ
  last : ℚ
  bid : ℚ
  ask : ℚ
  high : ℚ
  low : ℚ
  volume : ℚ
  change_24h : Option ℚ
deriving DecidableEq, Repr

/-- OHLCV candle data model (`OHLCVData`); `open_` stands for the
Python field `open`, a reserved word in Lean. -/
structure OHLCVData where
  timestamp : ℚ
  open_ : ℚ
  high : ℚ
  low : ℚ
  close : ℚ
  volume : ℚ
deriving DecidableEq, Repr

/-- Order book data model (`OrderBookData`). -/
structure OrderBookData where
  symbol : String
  exchange : String
  timestamp : ℚ
  bids : List (List ℚ)
  asks : List (List ℚ)
deriving DecidableEq, Repr

/-- Python `str.upper()`: uppercase every character (character-list
formulation of `String.toUpper`, kept kernel-reducible). -/
def strUpper (s : String) : String := ⟨s.data.map Char.toUpper⟩

/-- `MarketDataRequest.validate_symbol`: Python
`if '/' not in v: raise ValueError(...); return v.upper()`.
Membership of the character `/` in the string models Python's `in`. -/
def validate_symbol (v : String) : Except String String :=
  if '/' ∉ v.data then
    .error "Symbol must be in format BASE/QUOTE (e.g., BTC/USDT)"
  else
    .ok (strUpper v)

/-- Request model `MarketDataRequest` (already validated). -/
structure MarketDataRequest where
  symbol : String
  exchange : Exchange
deriving DecidableEq, Repr

/-- Constructing a `MarketDataRequest` runs the `validate_symbol`
field validator; failure is a construction-time error. -/
def MarketDataRequest.build (symbol : String) (exchange : Exchange) :
    Except String MarketDataRequest :=
  match validate_symbol symbol with
  | .ok s => .ok ⟨s, exchange⟩
  | .error e => .error e

/-- Request model `HistoricalDataRequest` (extends `MarketDataRequest`
with timeframe and limit; the optional `since` does not enter the cache
key and is absorbed into the fetch outcome parameter). -/
structure HistoricalDataRequest where
  symbol : String
  exchange : Exchange
  timeframe : TimeFrame
  limit : ℕ
deriving DecidableEq, Repr

/-- One `name=value` fragment of the cache-key string
(`f"{k}={v}"` in `CacheManager._generate_key`). -/
def paramString (p : String × String) : String := p.1 ++ "=" ++ p.2

/-- Comparison of parameter pairs by parameter name. -/
def leKey (a b : String × String) : Prop := a.1 ≤ b.1

instance : DecidableRel leKey := fun a b =>
  inferInstanceAs (Decidable (a.1 ≤ b.1))

instance : IsTotal (String × String) leKey := ⟨fun a b => le_total a.1 b.1⟩

instance : IsTrans (String × String) leKey := ⟨fun _ _ _ h₁ h₂ => le_trans h₁ h₂⟩

/-- Strict comparison of parameter pairs by parameter name. -/
def ltKey (a b : String × String) : Prop := a.1 < b.1

instance : IsAntisymm (String × String) ltKey :=
  ⟨fun _ _ h₁ h₂ => (lt_asymm h₁ h₂).elim⟩

/-- `sorted(kwargs.items())` of `CacheManager._generate_key`: the
parameter pairs sorted by parameter name (dict keys are unique, so
sorting by name alone is faithful to sorting the `(k, v)` tuples). -/
def sortParams (l : List (String × String)) : List (String × String) :=
  List.insertionSort leKey l

/-- `":".join(f"{k}={v}" ...)` of `CacheManager._generate_key`. -/
def joinPairs : List (String × String) → String
  | [] => ""
  | [p] => paramString p
  | p :: q :: rest => paramString p ++ ":" ++ joinPairs (q :: rest)

/-- `CacheManager._generate_key` up to the final MD5 hex digest:
`f"{prefix}:" + ":".join(f"{k}={v}" for k, v in sorted(kwargs.items()))`.
The source feeds this string to `hashlib.md5(...).hexdigest()`; the
digest is treated abstractly in the key theorems. -/
def generate_key (pfx : String) (params : List (String × String)) : String :=
  pfx ++ ":" ++ joinPairs (sortParams params)

/-- Upstream fault classes raised by the CCXT collaborator during a
fetch (the three `except` arms of the single-exchange read paths). -/
inductive Fault where
  | networkError
  | exchangeError
  | unexpectedError
deriving DecidableEq, Repr

deriving instance DecidableEq for Except

/-- Modelled from the spec: the TTL cache store backing each
`CacheManager` category is `cachetools.TTLCache`, an external library
whose code is not part of the repository sources. Spec §3/§4.1: a cache
entry has an absolute expiry derived from the category TTL and each
category has a capacity ceiling; `get` resolves only unexpired entries
and has no side effect on miss; `put` inserts or replaces and resets
the entry's TTL clock; if inserting would exceed the category's
maximum size and the key is new, the entry whose expiry is soonest is
evicted first. Entries are kept as a `(key, value, expiry)` list. -/
structure TTLCache (α : Type) where
  maxsize : ℕ
  ttl : ℚ
  entries : List (String × α × ℚ)
deriving DecidableEq

/-- Cache read (`TTLCache.get`): the value of an unexpired entry. -/
def TTLCache.get {α : Type} (now : ℚ) (k : String) (c : TTLCache α) :
    Option α :=
  match c.entries.find? (fun e => e.1 == k) with
  | some e => if now < e.2.2 then some e.2.1 else none
  | none => none

/-- Cache write (`TTLCache.__setitem__`): replace an existing entry
(resetting its TTL clock), or insert a new one, evicting the
soonest-expiring entry when the category is at its capacity ceiling. -/
def TTLCache.set {α : Type} (now : ℚ) (k : String) (v : α)
    (c : TTLCache α) : TTLCache α :=
  if c.entries.any (fun e => e.1 == k) then
    let l := c.entries.filter (fun e => e.1 != k) ++ [(k, v, now + c.ttl)]
    { c with entries := l }
  else if c.maxsize ≤ c.entries.length then
    match (c.entries.map (fun e => e.2.2)).min? with
    | some m =>
      let l := c.entries.eraseP (fun e => e.2.2 == m) ++ [(k, v, now + c.ttl)]
      { c with entries := l }
    | none => { c with entries := [(k, v, now + c.ttl)] }
  else
    { c with entries := c.entries ++ [(k, v, now + c.ttl)] }

/-- `CacheManager`: one TTL cache per data category. -/
structure CacheManager where
  ticker_cache : TTLCache TickerData
  ohlcv_cache : TTLCache (List OHLCVData)
  orderbook_cache : TTLCache OrderBookData
deriving DecidableEq

/-- `CacheManager.__init__`: ticker TTL 10s capacity 1000, OHLCV TTL
60s capacity 500, order book TTL 5s capacity 500. -/
def CacheManager.init : CacheManager :=
  ⟨⟨1000, 10, []⟩, ⟨500, 60, []⟩, ⟨500, 5, []⟩⟩

/-- The ticker cache key of `CacheManager.get_ticker`/`set_ticker`. -/
def tickerKey (exchange symbol : String) : String :=
  generate_key "ticker" [("exchange", exchange), ("symbol", symbol)]

/-- The OHLCV cache key of `CacheManager.get_ohlcv`/`set_ohlcv`. -/
def ohlcvKey (exchange symbol timeframe : String) (lim : ℕ) : String :=
  generate_key "ohlcv" [("exchange", exchange), ("symbol", symbol),
    ("timeframe", timeframe), ("limit", toString lim)]

/-- `CacheManager.get_ticker`. -/
def CacheManager.get_ticker (now : ℚ) (exchange symbol : String)
    (c : CacheManager) : Option TickerData :=
  TTLCache.get now (tickerKey exchange symbol) c.ticker_cache

/-- `CacheManager.set_ticker`. -/
def CacheManager.set_ticker (now : ℚ) (exchange symbol : String)
    (data : TickerData) (c : CacheManager) : CacheManager :=
  let t := TTLCache.set now (tickerKey exchange symbol) data c.ticker_cache
  { c with ticker_cache := t }

/-- `CacheManager.get_ohlcv`. -/
def CacheManager.get_ohlcv (now : ℚ) (exchange symbol timeframe : String)
    (lim : ℕ) (c : CacheManager) : Option (List OHLCVData) :=
  TTLCache.get now (ohlcvKey exchange symbol timeframe lim) c.ohlcv_cache

/-- `CacheManager.set_ohlcv`. -/
def CacheManager.set_ohlcv (now : ℚ) (exchange symbol timeframe : String)
    (lim : ℕ) (data : List OHLCVData) (c : CacheManager) : CacheManager :=
  let t := TTLCache.set now (ohlcvKey exchange symbol timeframe lim) data
    c.ohlcv_cache
  { c with ohlcv_cache := t }

/-- `CacheManager.clear_all`. -/
def CacheManager.clear_all (c : CacheManager) : CacheManager :=
  ⟨{ c.ticker_cache with entries := [] },
   { c.ohlcv_cache with entries := [] },
   { c.orderbook_cache with entries := [] }⟩

/-- The mutable engine state of `CryptoMCPServer`: caches and the
observability counters (uptime and the exchange registry are absorbed
into the fetch-outcome parameters of the operations). -/
structure CryptoMCPServer where
  cache : CacheManager
  request_count : ℕ
  error_count : ℕ
deriving DecidableEq

/-- `CryptoMCPServer.__init__`. -/
def CryptoMCPServer.init : CryptoMCPServer := ⟨CacheManager.init, 0, 0⟩

/-- Result of a single-exchange read operation: the post-state, the
returned value or fault, and the number of upstream fetch calls the
operation performed (0 on cache hit, 1 otherwise). -/
structure OpResult (α : Type) where
  state : CryptoMCPServer
  result : Except Fault α
  upstreamCalls : ℕ
deriving DecidableEq

/-- `CryptoMCPServer.get_ticker`: count the request, consult the ticker
cache, and on a miss perform the upstream fetch (whose normalized
outcome is the `fetch` parameter), caching a successful result and
counting a failed one in the error counter. -/
def CryptoMCPServer.get_ticker (fetch : Except Fault TickerData)
    (now : ℚ) (req : MarketDataRequest) (s : CryptoMCPServer) :
    OpResult TickerData :=
  let s := { s with request_count := s.request_count + 1 }
  match CacheManager.get_ticker now req.exchange.value req.symbol s.cache with
  | some cached => ⟨s, .ok cached, 0⟩
  | none =>
    match fetch with
    | .ok t =>
      let c := CacheManager.set_ticker now req.exchange.value req.symbol t
        s.cache
      ⟨{ s with cache := c }, .ok t, 1⟩
    | .error e => ⟨{ s with error_count := s.error_count + 1 }, .error e, 1⟩

/-- `CryptoMCPServer.get_ohlcv`: same cache-aside shape as
`get_ticker`, keyed additionally by timeframe and limit. The hit test
is Python truthiness (`if cached:`): both an absent entry and a cached
*empty* candle list fall through to the upstream fetch. -/
def CryptoMCPServer.get_ohlcv (fetch : Except Fault (List OHLCVData))
    (now : ℚ) (req : HistoricalDataRequest) (s : CryptoMCPServer) :
    OpResult (List OHLCVData) :=
  let s := { s with request_count := s.request_count + 1 }
  let onMiss : OpResult (List OHLCVData) :=
    match fetch with
    | .ok data =>
      let c := CacheManager.set_ohlcv now req.exchange.value req.symbol
        req.timeframe.value req.limit data s.cache
      ⟨{ s with cache := c }, .ok data, 1⟩
    | .error e => ⟨{ s with error_count := s.error_count + 1 }, .error e, 1⟩
  match CacheManager.get_ohlcv now req.exchange.value req.symbol
      req.timeframe.value req.limit s.cache with
  | some cached => if cached.isEmpty then onMiss else ⟨s, .ok cached, 0⟩
  | none => onMiss

/-- `CryptoMCPServer.get_orderbook`: counts the request, always
fetches (no cache interaction), truncates both sides to the requested
depth, and counts a failure. `fetch` carries the raw
`(timestamp, bids, asks)` of `fetch_order_book`. -/
def CryptoMCPServer.get_orderbook
    (fetch : Except Fault (ℚ × List (List ℚ) × List (List ℚ)))
    (lim : ℕ) (req : MarketDataRequest) (s : CryptoMCPServer) :
    OpResult OrderBookData :=
  let s := { s with request_count := s.request_count + 1 }
  match fetch with
  | .ok raw =>
    ⟨s, .ok ⟨req.symbol, req.exchange.value, raw.1,
        raw.2.1.take lim, raw.2.2.take lim⟩, 1⟩
  | .error e => ⟨{ s with error_count := s.error_count + 1 }, .error e, 1⟩

/-- `CryptoMCPServer._safe_get_ticker`: absorb any fault of
`get_ticker` into `none`. -/
def CryptoMCPServer.safe_get_ticker (fetch : Except Fault TickerData)
    (now : ℚ) (req : MarketDataRequest) (s : CryptoMCPServer) :
    CryptoMCPServer × Option TickerData :=
  match CryptoMCPServer.get_ticker fetch now req s with
  | ⟨s', .ok t, _⟩ => (s', some t)
  | ⟨s', .error _, _⟩ => (s', none)

/-- The request-construction loop of `get_multi_exchange_ticker`: one
`MarketDataRequest` per requested exchange; a validation failure
propagates out of the whole operation (the construction happens outside
`_safe_get_ticker`). -/
def buildRequests (symbol : String) :
    List Exchange → Except String (List MarketDataRequest)
  | [] => .ok []
  | ex :: rest =>
    match MarketDataRequest.build symbol ex with
    | .error e => .error e
    | .ok r =>
      match buildRequests symbol rest with
      | .error e => .error e
      | .ok rs => .ok (r :: rs)

/-- The `asyncio.gather` fan-out of `get_multi_exchange_ticker`
(linearized): run `_safe_get_ticker` for each request, keeping the
`(exchange id, ticker)` pairs of the sub-queries that succeeded.
`oracle` gives each exchange's upstream fetch outcome. -/
def gatherTickers (oracle : Exchange → Except Fault TickerData) (now : ℚ) :
    List MarketDataRequest → CryptoMCPServer →
      CryptoMCPServer × List (String × TickerData)
  | [], s => (s, [])
  | r :: rest, s =>
    let out := CryptoMCPServer.safe_get_ticker (oracle r.exchange) now r s
    let tail := gatherTickers oracle now rest out.1
    match out.2 with
    | some t => (tail.1, (r.exchange.value, t) :: tail.2)
    | none => (tail.1, tail.2)

/-- `CryptoMCPServer.get_multi_exchange_ticker`. -/
def CryptoMCPServer.get_multi_exchange_ticker
    (oracle : Exchange → Except Fault TickerData) (now : ℚ)
    (symbol : String) (exchanges : List Exchange) (s : CryptoMCPServer) :
    Except String (CryptoMCPServer × List (String × TickerData)) :=
  match buildRequests symbol exchanges with
  | .error e => .error e
  | .ok reqs => .ok (gatherTickers oracle now reqs s)

/-- Python `max(prices)` (never called on an empty list). -/
def pyMax : List ℚ → ℚ
  | [] => 0
  | x :: xs => xs.foldl max x

/-- Python `min(prices)` (never called on an empty list). -/
def pyMin : List ℚ → ℚ
  | [] => 0
  | x :: xs => xs.foldl min x

/-- Python `prices[-1]` (never called on an empty list). -/
def pyLast (l : List ℚ) : ℚ :=
  match l.getLast? with
  | some x => x
  | none => 0

/-- Python `prices[0]` (never called on an empty list). -/
def pyHead (l : List ℚ) : ℚ :=
  match l.head? with
  | some x => x
  | none => 0

/-- The population variance computed inside
`CryptoMCPServer._calculate_volatility`:
`sum((p - mean) ** 2 for p in prices) / len(prices)`. -/
def varianceOf (prices : List ℚ) : ℚ :=
  let mean := prices.sum / prices.length
  (prices.map (fun p => (p - mean) ^ 2)).sum / prices.length

/-- `CryptoMCPServer._calculate_volatility`: `0.0` for fewer than two
prices, else `variance ** 0.5` (the square root, over `ℝ`). -/
noncomputable def _calculate_volatility (prices : List ℚ) : ℝ :=
  if prices.length < 2 then 0 else Real.sqrt (varianceOf prices)

/-- Stated from the spec's words, for comparison with the code: the
population standard deviation of a price sequence,
`sqrt(mean((x - mean)²))`, not sample/Bessel-corrected. -/
noncomputable def popStdDev (prices : List ℚ) : ℝ :=
  Real.sqrt
    (((prices.map (fun p : ℚ => ((p : ℝ) -
        (prices.map (fun q : ℚ => (q : ℝ))).sum / (prices.length : ℝ)) ^ 2)).sum)
      / (prices.length : ℝ))

/-- The statistics dictionary returned by
`CryptoMCPServer.get_price_statistics`. -/
structure PriceStats where
  symbol : String
  exchange : String
  timeframe : String
  period : ℕ
  current_price : ℚ
  highest_price : ℚ
  lowest_price : ℚ
  average_price : ℚ
  price_change : ℚ
  price_change_percent : ℚ
  total_volume : ℚ
  average_volume : ℚ
  volatility : ℝ

/-- The statistics computation of `CryptoMCPServer.get_price_statistics`
on the fetched OHLCV sequence: the `NoData` guard
(`if not ohlcv_data: raise ValueError(...)`) runs before any
arithmetic. A zero first close makes the `price_change_percent`
division `(prices[-1] - prices[0]) / prices[0]` raise
`ZeroDivisionError` in the source; that uncaught exception is modelled
as the `"float division by zero"` error. -/
noncomputable def computeStats (ohlcv : List OHLCVData)
    (req : HistoricalDataRequest) : Except String PriceStats :=
  if ohlcv.isEmpty then
    .error "No data available for statistics"
  else if pyHead (ohlcv.map (fun c => c.close)) = 0 then
    .error "float division by zero"
  else
    let prices := ohlcv.map (fun c => c.close)
    let volumes := ohlcv.map (fun c => c.volume)
    .ok
      { symbol := req.symbol
        exchange := req.exchange.value
        timeframe := req.timeframe.value
        period := ohlcv.length
        current_price := pyLast prices
        highest_price := pyMax prices
        lowest_price := pyMin prices
        average_price := prices.sum / prices.length
        price_change := pyLast prices - pyHead prices
        price_change_percent :=
          ((pyLast prices - pyHead prices) / pyHead prices) * 100
        total_volume := volumes.sum
        average_volume := volumes.sum / volumes.length
        volatility := _calculate_volatility prices }

/-- `CryptoMCPServer.get_price_statistics`: fetch (or replay from
cache) the OHLCV series through `get_ohlcv`, then compute the
statistics; a fetch fault propagates as the operation's failure. -/
noncomputable def CryptoMCPServer.get_price_statistics
    (fetch : Except Fault (List OHLCVData)) (now : ℚ)
    (req : HistoricalDataRequest) (s : CryptoMCPServer) :
    CryptoMCPServer × Except String PriceStats :=
  match CryptoMCPServer.get_ohlcv fetch now req s with
  | ⟨s', .ok data, _⟩ => (s', computeStats data req)
  | ⟨s', .error _, _⟩ => (s', .error "Failed to fetch OHLCV data")

/-- `CryptoMCPServer.clear_cache`. -/
def CryptoMCPServer.clear_cache (s : CryptoMCPServer) : CryptoMCPServer :=
  { s with cache := CacheManager.clear_all s.cache }

/-- Does this character-list start with the given needle? -/
def startsWithChars : List Char → List Char → Bool
  | [], _ => true
  | _ :: _, [] => false
  | a :: as, b :: bs => a == b && startsWithChars as bs

/-- Contiguous-substring test on character lists (Python's `in` on
strings). -/
def containsSub (needle : List Char) : List Char → Bool
  | [] => needle.isEmpty
  | c :: rest => startsWithChars needle (c :: rest) || containsSub needle rest

/-- Python `query_upper in symbol` on strings. -/
def strIn (needle hay : String) : Bool := containsSub needle.data hay.data

/-- `CryptoMCPServer.search_symbols` on a loaded market catalog
(`exchange.markets.keys()` is the `markets` parameter):
filter the catalog by substring match against the uppercased query,
sort, and keep the first 50. -/
def search_symbols (query : String) (markets : List String) : List String :=
  let query_upper := strUpper query
  let matching_symbols := markets.filter (fun sym => strIn query_upper sym)
  (List.insertionSort (fun a b : String => a ≤ b) matching_symbols).take 50

/-- One engine operation, for stating frame properties across the whole
engine surface. -/
inductive EngineOp where
  | ticker (fetch : Except Fault TickerData) (now : ℚ)
      (req : MarketDataRequest)
  | ohlcv (fetch : Except Fault (List OHLCVData)) (now : ℚ)
      (req : HistoricalDataRequest)
  | orderbook (fetch : Except Fault (ℚ × List (List ℚ) × List (List ℚ)))
      (lim : ℕ) (req : MarketDataRequest)
  | multi (oracle : Exchange → Except Fault TickerData) (now : ℚ)
      (symbol : String) (exchanges : List Exchange)
  | stats (fetch : Except Fault (List OHLCVData)) (now : ℚ)
      (req : HistoricalDataRequest)
  | clearCache

/-- The state transition of each engine operation. -/
noncomputable def EngineOp.apply (op : EngineOp) (s : CryptoMCPServer) :
    CryptoMCPServer :=
  match op with
  | .ticker fetch now req => (CryptoMCPServer.get_ticker fetch now req s).state
  | .ohlcv fetch now req => (CryptoMCPServer.get_ohlcv fetch now req s).state
  | .orderbook fetch lim req =>
      (CryptoMCPServer.get_orderbook fetch lim req s).state
  | .multi oracle now symbol exchanges =>
      match CryptoMCPServer.get_multi_exchange_ticker oracle now symbol
          exchanges s with
      | .ok out => out.1
      | .error _ => s
  | .stats fetch now req =>
      (CryptoMCPServer.get_price_statistics fetch now req s).1
  | .clearCache => CryptoMCPServer.clear_cache s

/-- N single-exchange ticker calls whose upstream fetches all fault
(the N-fault scenario of the error-counting property). -/
def iterateFailingTickers (now : ℚ) (req : MarketDataRequest) :
    List Fault → CryptoMCPServer → CryptoMCPServer
  | [], s => s
  | e :: rest, s =>
    iterateFailingTickers now req rest
      (CryptoMCPServer.get_ticker (.error e) now req s).state

/-- Claim C8, counterexample: the claim requires construction to succeed
only when the symbol contains exactly one `/` separator, but the code
merely checks that at least one `/` is present: `"BTC/USD/T"` contains
two separators yet is accepted. -/
theorem build_accepts_double_separator :
    (MarketDataRequest.build "BTC/USD/T" Exchange.binance).toBool = true ∧
    "BTC/USD/T".data.count '/' = 2 := by
  decide

/-- Claim C8 (amended): constructing a `MarketDataRequest` with symbol
`s` succeeds exactly when `s` contains at least one `/` character (the
validator does not reject additional separators), and on success the
stored symbol is `s` uppercased and the stored exchange is the one
requested; the check happens at construction time, before any I/O. -/
theorem build_symbol_validation (s : String) (ex : Exchange) :
    ((MarketDataRequest.build s ex).toBool = true ↔ 0 < s.data.count '/') ∧
    (∀ r, MarketDataRequest.build s ex = .ok r →
      r.symbol = strUpper s ∧ r.exchange = ex) := by
  constructor
  · unfold MarketDataRequest.build validate_symbol
    by_cases h : '/' ∈ s.data <;>
      simp [h, Except.toBool, List.count_pos_iff]
  · intro r hr
    unfold MarketDataRequest.build validate_symbol at hr
    by_cases h : '/' ∈ s.data
    · simp only [h, not_true_eq_false, if_false, ite_false] at hr
      cases hr
      exact ⟨rfl, rfl⟩
    · simp [h] at hr

/-- Witness for C8: `"btc/usdt"` is accepted and normalized to
`"BTC/USDT"`, while `"BTCUSDT"` (no separator) is rejected. -/
theorem build_symbol_validation_witness :
    (MarketDataRequest.build "btc/usdt" Exchange.binance).toBool = true ∧
    (∀ r, MarketDataRequest.build "btc/usdt" Exchange.binance = .ok r →
      r.symbol = "BTC/USDT") ∧
    ¬ (MarketDataRequest.build "BTCUSDT" Exchange.binance).toBool = true := by
  refine ⟨(build_symbol_validation "btc/usdt" Exchange.binance).1.mpr (by decide),
    fun r hr => ?_, ?_⟩
  · have h := ((build_symbol_validation "btc/usdt" Exchange.binance).2 r hr).1
    rw [h]; decide
  · intro hok
    have h := (build_symbol_validation "BTCUSDT" Exchange.binance).1.mp hok
    revert h
    decide

theorem strCancelLeft {a b c : String} (h : a ++ b = a ++ c) : b = c := by
  have hd : a.data ++ b.data = a.data ++ c.data := by
    have := congrArg String.data h
    simpa using this
  exact String.ext (List.append_cancel_left hd)

theorem strCancelRight {a b c : String} (h : a ++ c = b ++ c) : a = b := by
  have hd : a.data ++ c.data = b.data ++ c.data := by
    have := congrArg String.data h
    simpa using this
  exact String.ext (List.append_cancel_right hd)

theorem paramString_inj {a b : String × String} (hn : a.1 = b.1)
    (h : paramString a = paramString b) : a = b := by
  unfold paramString at h
  rw [← hn] at h
  have h' : (a.1 ++ "=") ++ a.2 = (a.1 ++ "=") ++ b.2 := by
    simpa [String.append_assoc] using h
  exact Prod.ext hn (strCancelLeft h')

theorem sortParams_perm (l : List (String × String)) : List.Perm (sortParams l) l :=
  List.perm_insertionSort leKey l

theorem sortParams_sorted (l : List (String × String)) :
    (sortParams l).Sorted leKey :=
  List.sorted_insertionSort leKey l

theorem sortParams_eq_of_perm {l₁ l₂ : List (String × String)}
    (hp : List.Perm l₁ l₂) (hnd : l₁.Pairwise (fun a b => a.1 ≠ b.1)) :
    sortParams l₁ = sortParams l₂ := by
  have hsym : ∀ {a b : String × String}, a.1 ≠ b.1 → b.1 ≠ a.1 :=
    fun h => h.symm
  have hp' : List.Perm (sortParams l₁) (sortParams l₂) :=
    (sortParams_perm l₁).trans (hp.trans (sortParams_perm l₂).symm)
  have hnd₁ : (sortParams l₁).Pairwise (fun a b => a.1 ≠ b.1) :=
    ((sortParams_perm l₁).pairwise_iff hsym).mpr hnd
  have hnd₂ : (sortParams l₂).Pairwise (fun a b => a.1 ≠ b.1) :=
    ((sortParams_perm l₂).pairwise_iff hsym).mpr
      ((hp.pairwise_iff hsym).mp hnd)
  have hlt₁ : (sortParams l₁).Pairwise ltKey :=
    (sortParams_sorted l₁).imp₂ (fun _ _ hle hne => lt_of_le_of_ne hle hne) hnd₁
  have hlt₂ : (sortParams l₂).Pairwise ltKey :=
    (sortParams_sorted l₂).imp₂ (fun _ _ hle hne => lt_of_le_of_ne hle hne) hnd₂
  exact List.eq_of_perm_of_sorted hp' hlt₁ hlt₂

/-- Relating two parameter lists that agree on names everywhere and on
values except possibly at parameters named `n`. -/
def sameName (n : String) (a b : String × String) : Prop :=
  a.1 = b.1 ∧ (a.2 = b.2 ∨ a.1 = n)

theorem forall₂_orderedInsert (n : String) {a b : String × String}
    {l₁ l₂ : List (String × String)} (hab : sameName n a b)
    (h : List.Forall₂ (sameName n) l₁ l₂) :
    List.Forall₂ (sameName n) (l₁.orderedInsert leKey a)
      (l₂.orderedInsert leKey b) := by
  induction h with
  | nil => exact .cons hab .nil
  | @cons c d t₁ t₂ hcd ht ih =>
    simp only [List.orderedInsert]
    by_cases hac : leKey a c
    · rw [if_pos hac, if_pos (by
        unfold leKey at hac ⊢
        rw [← hab.1, ← hcd.1]
        exact hac)]
      exact .cons hab (.cons hcd ht)
    · rw [if_neg hac, if_neg (by
        unfold leKey at hac ⊢
        rw [← hab.1, ← hcd.1]
        exact hac)]
      exact .cons hcd ih

theorem forall₂_sortParams (n : String) {l₁ l₂ : List (String × String)}
    (h : List.Forall₂ (sameName n) l₁ l₂) :
    List.Forall₂ (sameName n) (sortParams l₁) (sortParams l₂) := by
  induction h with
  | nil => exact .nil
  | @cons a b t₁ t₂ hab ht ih => exact forall₂_orderedInsert n hab ih

theorem forall₂_eq_of_no_name (n : String) :
    ∀ {l₁ l₂ : List (String × String)}, List.Forall₂ (sameName n) l₁ l₂ →
      (∀ p ∈ l₁, p.1 ≠ n) → l₁ = l₂ := by
  intro l₁ l₂ h
  induction h with
  | nil => intro _; rfl
  | @cons a b t₁ t₂ hab ht ih =>
    intro hno
    have hv : a.2 = b.2 :=
      hab.2.resolve_right (hno a (List.mem_cons_self a t₁))
    have hEq : a = b := Prod.ext hab.1 hv
    rw [hEq, ih (fun p hp => hno p (List.mem_cons_of_mem a hp))]

theorem joinPairs_inj (n : String) :
    ∀ {s₁ s₂ : List (String × String)}, List.Forall₂ (sameName n) s₁ s₂ →
      s₁.Pairwise (fun a b => a.1 ≠ b.1) →
      joinPairs s₁ = joinPairs s₂ → s₁ = s₂ := by
  intro s₁ s₂ h
  induction h with
  | nil => intro _ _; rfl
  | @cons a b t₁ t₂ hab ht ih =>
    intro hnd hj
    cases ht with
    | nil =>
      unfold joinPairs at hj
      rw [paramString_inj hab.1 hj]
    | @cons c d t₁' t₂' hcd ht' =>
      have hj' : (paramString a ++ ":") ++ joinPairs (c :: t₁') =
          (paramString b ++ ":") ++ joinPairs (d :: t₂') := by
        simpa [joinPairs, String.append_assoc] using hj
      rcases hab.2 with hv | hn
      · have hEq : a = b := Prod.ext hab.1 hv
        subst hEq
        have hjt : joinPairs (c :: t₁') = joinPairs (d :: t₂') :=
          strCancelLeft hj'
        have htl : c :: t₁' = d :: t₂' :=
          ih (List.Pairwise.sublist (List.sublist_cons_self a _) hnd) hjt
        rw [htl]
      · have hno : ∀ p ∈ c :: t₁', p.1 ≠ n := by
          intro p hp
          have := (List.pairwise_cons.mp hnd).1 p hp
          rw [hn] at this
          exact fun hpn => this.symm (hpn ▸ rfl)
        have htl : c :: t₁' = d :: t₂' :=
          forall₂_eq_of_no_name n (.cons hcd ht') hno
        rw [htl] at hj' ⊢
        have hpab : paramString a ++ ":" = paramString b ++ ":" :=
          strCancelRight hj'
        have hps : paramString a = paramString b := strCancelRight hpab
        rw [paramString_inj hab.1 hps]

theorem forall₂_value_change (n v v' : String)
    (pre post : List (String × String)) :
    List.Forall₂ (sameName n) (pre ++ (n, v) :: post)
      (pre ++ (n, v') :: post) := by
  induction pre with
  | nil =>
    exact .cons ⟨rfl, Or.inr rfl⟩
      (List.forall₂_same.mpr (fun x _ => ⟨rfl, Or.inl rfl⟩))
  | cons p ps ih => exact .cons ⟨rfl, Or.inl rfl⟩ ih

/-- Claim C3: the cache key derived by `CacheManager._generate_key` is a
deterministic function of the category name and the parameter
`name=value` pairs sorted by parameter name — two parameter maps with
the same pairs in any insertion order produce the same key under any
digest — and changing the value of any single parameter changes the
pre-digest key string (hence the key, up to collision of the fixed-width
digest). -/
theorem generate_key_spec :
    (∀ (digest : String → String) (c : String)
       (l₁ l₂ : List (String × String)),
      List.Perm l₁ l₂ → l₁.Pairwise (fun a b => a.1 ≠ b.1) →
      digest (generate_key c l₁) = digest (generate_key c l₂)) ∧
    (∀ (c n v v' : String) (pre post : List (String × String)),
      (pre ++ (n, v) :: post).Pairwise (fun a b => a.1 ≠ b.1) →
      v ≠ v' →
      generate_key c (pre ++ (n, v) :: post) ≠
        generate_key c (pre ++ (n, v') :: post)) := by
  have hsym : ∀ {a b : String × String}, a.1 ≠ b.1 → b.1 ≠ a.1 :=
    fun h => h.symm
  constructor
  · intro digest c l₁ l₂ hp hnd
    unfold generate_key
    rw [sortParams_eq_of_perm hp hnd]
  · intro c n v v' pre post hnd hne heq
    have hf : List.Forall₂ (sameName n)
        (pre ++ (n, v) :: post) (pre ++ (n, v') :: post) :=
      forall₂_value_change n v v' pre post
    have hj : joinPairs (sortParams (pre ++ (n, v) :: post)) =
        joinPairs (sortParams (pre ++ (n, v') :: post)) := by
      unfold generate_key at heq
      exact strCancelLeft heq
    have hnd₁ : (sortParams (pre ++ (n, v) :: post)).Pairwise
        (fun a b => a.1 ≠ b.1) :=
      ((sortParams_perm _).pairwise_iff hsym).mpr hnd
    have hs : sortParams (pre ++ (n, v) :: post) =
        sortParams (pre ++ (n, v') :: post) :=
      joinPairs_inj n (forall₂_sortParams n hf) hnd₁ hj
    have hmem : (n, v) ∈ pre ++ (n, v') :: post := by
      have h₁ : (n, v) ∈ sortParams (pre ++ (n, v) :: post) :=
        (sortParams_perm _).mem_iff.mpr (by simp)
      rw [hs] at h₁
      exact (sortParams_perm _).mem_iff.mp h₁
    have hnd₂ : (pre ++ (n, v') :: post).Pairwise
        (fun a b => a.1 ≠ b.1) := by
      have h₁ : (List.map Prod.fst (pre ++ (n, v) :: post)).Nodup :=
        List.pairwise_map.mpr hnd
      have h₂ : List.map Prod.fst (pre ++ (n, v) :: post) =
          List.map Prod.fst (pre ++ (n, v') :: post) := by simp
      rw [h₂] at h₁
      exact List.pairwise_map.mp h₁
    rcases List.mem_append.mp hmem with hpre | hmid
    · have h₃ := (List.pairwise_append.mp hnd₂).2.2 (n, v) hpre (n, v')
        (List.mem_cons_self _ _)
      exact h₃ rfl
    · rcases List.mem_cons.mp hmid with hhead | hpost
      · exact hne (congrArg Prod.snd hhead)
      · have h₃ := (List.pairwise_cons.mp
          (List.pairwise_append.mp hnd₂).2.1).1 (n, v) hpost
        exact h₃ rfl

/-- Witness for C3: the key for parameters `{a: 1, b: 2}` is insertion-
order independent, and changing the value of `b` changes the key. -/
theorem generate_key_spec_witness :
    generate_key "ticker" [("a", "1"), ("b", "2")] =
      generate_key "ticker" [("b", "2"), ("a", "1")] ∧
    generate_key "ticker" [("a", "1"), ("b", "2")] ≠
      generate_key "ticker" [("a", "1"), ("b", "3")] := by
  constructor
  · exact generate_key_spec.1 id "ticker"
      [("a", "1"), ("b", "2")] [("b", "2"), ("a", "1")]
      (by decide) (by decide)
  · exact generate_key_spec.2 "ticker" "b" "2" "3" [("a", "1")] []
      (by decide) (by decide)

theorem TTLCache.set_entries_shape {α : Type} (now : ℚ) (k : String) (v : α)
    (c : TTLCache α) :
    ∃ pre, (TTLCache.set now k v c).entries = pre ++ [(k, v, now + c.ttl)] ∧
      (∀ e ∈ pre, ¬ e.1 = k) ∧ pre.Sublist c.entries := by
  unfold TTLCache.set
  by_cases hany : c.entries.any (fun e => e.1 == k) = true
  · refine ⟨c.entries.filter (fun e => e.1 != k), by simp [hany], ?_, ?_⟩
    · intro e he heq
      have := (List.mem_filter.mp he).2
      simp [heq] at this
    · exact List.filter_sublist c.entries
  · have hnok : ∀ e ∈ c.entries, ¬ e.1 = k := by
      intro e he heq
      exact hany (List.any_eq_true.mpr ⟨e, he, by simp [heq]⟩)
    by_cases hfull : c.maxsize ≤ c.entries.length
    · cases hmin : (c.entries.map (fun e => e.2.2)).min? with
      | none =>
        refine ⟨[], ?_, by simp, List.nil_sublist _⟩
        simp [hany, hfull, hmin]
      | some m =>
        refine ⟨c.entries.eraseP (fun e => e.2.2 == m), ?_, ?_, ?_⟩
        · simp [hany, hfull, hmin]
        · intro e he
          exact hnok e ((List.eraseP_sublist c.entries).mem he)
        · exact List.eraseP_sublist c.entries
    · refine ⟨c.entries, ?_, hnok, List.Sublist.refl _⟩
      simp [hany, hfull]

theorem TTLCache.get_set_same {α : Type} (now now' : ℚ) (k : String) (v : α)
    (c : TTLCache α) :
    TTLCache.get now' k (TTLCache.set now k v c) =
      if now' < now + c.ttl then some v else none := by
  obtain ⟨pre, hsh, hno, _⟩ := TTLCache.set_entries_shape now k v c
  unfold TTLCache.get
  rw [hsh, List.find?_append]
  have hpre : pre.find? (fun e => e.1 == k) = none :=
    List.find?_eq_none.mpr (fun x hx => by simpa using hno x hx)
  simp [hpre]

/-- Claim C7: a cache category at its capacity ceiling, receiving a new
(distinct) key, evicts exactly one existing entry — one whose expiry is
soonest among all entries — keeping the others in order and staying at
the capacity ceiling. (The TTL cache store is the external
`cachetools.TTLCache`; its semantics here are modelled from spec §4.1.) -/
theorem ttlcache_evicts_soonest {α : Type} (c : TTLCache α) (now : ℚ)
    (k : String) (v : α)
    (hfull : c.entries.length = c.maxsize) (hpos : 0 < c.maxsize)
    (hnew : ∀ e ∈ c.entries, ¬ e.1 = k) :
    ∃ ev l₁ l₂,
      c.entries = l₁ ++ ev :: l₂ ∧
      (∀ f ∈ c.entries, ev.2.2 ≤ f.2.2) ∧
      (TTLCache.set now k v c).entries =
        (l₁ ++ l₂) ++ [(k, v, now + c.ttl)] ∧
      (TTLCache.set now k v c).entries.length = c.maxsize := by
  have hne : c.entries ≠ [] := by
    intro h
    rw [h] at hfull
    simp at hfull
    omega
  have hany : c.entries.any (fun e => e.1 == k) = false := by
    rw [List.any_eq_false]
    intro e he
    simpa using hnew e he
  have hmapne : (c.entries.map (fun e => e.2.2)) ≠ [] := by
    simpa using hne
  cases hmin : (c.entries.map (fun e => e.2.2)).min? with
  | none => exact absurd (List.min?_eq_none_iff.mp hmin) hmapne
  | some m =>
    have hm_mem : m ∈ c.entries.map (fun e => e.2.2) :=
      List.min?_mem (fun a b => min_choice a b) hmin
    have hm_le : ∀ b ∈ c.entries.map (fun e => e.2.2), m ≤ b :=
      (List.le_min?_iff (fun a b c => le_min_iff) hmin).mp (le_refl m)
    obtain ⟨ev₀, hev₀_mem, hev₀⟩ := List.mem_map.mp hm_mem
    have hp : (ev₀.2.2 == m) = true := by
      simp [hev₀]
    obtain ⟨ev, l₁, l₂, hl₁, hpev, hdecomp, herase⟩ :=
      @List.exists_of_eraseP (String × α × ℚ) (fun e => e.2.2 == m)
        c.entries ev₀ hev₀_mem hp
    have hevm : ev.2.2 = m := by simpa using hpev
    have hset : (TTLCache.set now k v c).entries =
        (c.entries.eraseP (fun e => e.2.2 == m)) ++ [(k, v, now + c.ttl)] := by
      unfold TTLCache.set
      simp [hany, hfull.ge, hmin]
    refine ⟨ev, l₁, l₂, hdecomp, ?_, ?_, ?_⟩
    · intro f hf
      rw [hevm]
      exact hm_le f.2.2 (List.mem_map.mpr ⟨f, hf, rfl⟩)
    · rw [hset, herase]
    · rw [hset, herase]
      have : c.entries.length = l₁.length + 1 + l₂.length := by
        rw [hdecomp]
        simp
        omega
      simp only [List.length_append, List.length_cons, List.length_nil]
      omega

/-- Witness for C7: a two-entry cache at capacity 2 receiving a third
key evicts the entry expiring at time 3 (the soonest). -/
theorem ttlcache_evicts_soonest_witness :
    ∃ ev l₁ l₂,
      (⟨2, 10, [("a", 1, 5), ("b", 2, 3)]⟩ : TTLCache ℕ).entries =
        l₁ ++ ev :: l₂ ∧
      (∀ f ∈ (⟨2, 10, [("a", 1, 5), ("b", 2, 3)]⟩ : TTLCache ℕ).entries,
        ev.2.2 ≤ f.2.2) ∧
      (TTLCache.set 0 "c" 3
          (⟨2, 10, [("a", 1, 5), ("b", 2, 3)]⟩ : TTLCache ℕ)).entries =
        (l₁ ++ l₂) ++ [("c", 3, 0 + 10)] ∧
      (TTLCache.set 0 "c" 3
          (⟨2, 10, [("a", 1, 5), ("b", 2, 3)]⟩ : TTLCache ℕ)).entries.length
        = 2 :=
  ttlcache_evicts_soonest ⟨2, 10, [("a", 1, 5), ("b", 2, 3)]⟩ 0 "c" 3
    (by decide) (by decide) (by decide)

/-- Claim C2 (amended): a ticker read whose cached entry is present and
unexpired, and an OHLCV read whose cached entry is present, unexpired
and non-empty, return the cached value with no upstream fetch call and
still count the request; consequently two identical ticker requests
within the TTL perform exactly one upstream fetch in total, the second
returning the value fetched by the first. (A cached *empty* OHLCV list
is falsy under the source's `if cached:` test and is refetched.) -/
theorem cache_hit_no_upstream_fetch :
    (∀ fetch now req (s : CryptoMCPServer) v,
      CacheManager.get_ticker now req.exchange.value req.symbol s.cache
        = some v →
      CryptoMCPServer.get_ticker fetch now req s =
        ⟨{ s with request_count := s.request_count + 1 }, .ok v, 0⟩) ∧
    (∀ fetch now req (s : CryptoMCPServer) v,
      CacheManager.get_ohlcv now req.exchange.value req.symbol
        req.timeframe.value req.limit s.cache = some v →
      v ≠ [] →
      CryptoMCPServer.get_ohlcv fetch now req s =
        ⟨{ s with request_count := s.request_count + 1 }, .ok v, 0⟩) ∧
    (∀ (s : CryptoMCPServer) req v fetch₂ t₁ t₂,
      CacheManager.get_ticker t₁ req.exchange.value req.symbol s.cache
        = none →
      t₂ < t₁ + s.cache.ticker_cache.ttl →
      (CryptoMCPServer.get_ticker (.ok v) t₁ req s).upstreamCalls +
        (CryptoMCPServer.get_ticker fetch₂ t₂ req
          (CryptoMCPServer.get_ticker (.ok v) t₁ req s).state).upstreamCalls
        = 1 ∧
      (CryptoMCPServer.get_ticker fetch₂ t₂ req
        (CryptoMCPServer.get_ticker (.ok v) t₁ req s).state).result
        = .ok v) := by
  refine ⟨?_, ?_, ?_⟩
  · intro fetch now req s v h
    simp [CryptoMCPServer.get_ticker, h]
  · intro fetch now req s v h hne
    cases v with
    | nil => exact absurd rfl hne
    | cons a t => simp [CryptoMCPServer.get_ohlcv, h]
  · intro s req v fetch₂ t₁ t₂ hmiss hlt
    have h₁ : CryptoMCPServer.get_ticker (.ok v) t₁ req s =
        ⟨⟨CacheManager.set_ticker t₁ req.exchange.value req.symbol v s.cache,
          s.request_count + 1, s.error_count⟩, .ok v, 1⟩ := by
      simp [CryptoMCPServer.get_ticker, hmiss]
    have h₂ : CacheManager.get_ticker t₂ req.exchange.value req.symbol
        (CacheManager.set_ticker t₁ req.exchange.value req.symbol v
          s.cache) = some v := by
      unfold CacheManager.get_ticker CacheManager.set_ticker
      simp only [TTLCache.get_set_same]
      rw [if_pos hlt]
    rw [h₁]
    simp [CryptoMCPServer.get_ticker, h₂]

/-- Witness for C2: starting from the initial state, a missed ticker
request at time 0 followed by an identical request at time 5 (within
the 10-second TTL) performs exactly one upstream fetch, and the second
call returns the first call's value even though its own fetch outcome
is a network fault. -/
theorem cache_hit_no_upstream_fetch_witness :
    (CryptoMCPServer.get_ticker
        (.ok ⟨"BTC/USDT", "binance", 0, 50000, 49999, 50001, 51000, 49000,
          1000, none⟩) 0 ⟨"BTC/USDT", Exchange.binance⟩
        CryptoMCPServer.init).upstreamCalls +
      (CryptoMCPServer.get_ticker (.error .networkError) 5
        ⟨"BTC/USDT", Exchange.binance⟩
        (CryptoMCPServer.get_ticker
          (.ok ⟨"BTC/USDT", "binance", 0, 50000, 49999, 50001, 51000, 49000,
            1000, none⟩) 0 ⟨"BTC/USDT", Exchange.binance⟩
          CryptoMCPServer.init).state).upstreamCalls = 1 ∧
    (CryptoMCPServer.get_ticker (.error .networkError) 5
        ⟨"BTC/USDT", Exchange.binance⟩
        (CryptoMCPServer.get_ticker
          (.ok ⟨"BTC/USDT", "binance", 0, 50000, 49999, 50001, 51000, 49000,
            1000, none⟩) 0 ⟨"BTC/USDT", Exchange.binance⟩
          CryptoMCPServer.init).state).result =
      .ok ⟨"BTC/USDT", "binance", 0, 50000, 49999, 50001, 51000, 49000,
        1000, none⟩ :=
  cache_hit_no_upstream_fetch.2.2 CryptoMCPServer.init
    ⟨"BTC/USDT", Exchange.binance⟩
    ⟨"BTC/USDT", "binance", 0, 50000, 49999, 50001, 51000, 49000, 1000, none⟩
    (.error .networkError) 0 5 rfl
    (by norm_num [CryptoMCPServer.init, CacheManager.init])

theorem get_ticker_frame (fetch : Except Fault TickerData) (now : ℚ)
    (req : MarketDataRequest) (s : CryptoMCPServer) :
    (CryptoMCPServer.get_ticker fetch now req s).state.cache.ohlcv_cache
      = s.cache.ohlcv_cache ∧
    (CryptoMCPServer.get_ticker fetch now req s).state.cache.orderbook_cache
      = s.cache.orderbook_cache := by
  cases hc : CacheManager.get_ticker now req.exchange.value req.symbol
      s.cache with
  | some v => simp [CryptoMCPServer.get_ticker, hc]
  | none =>
    cases fetch with
    | ok t => simp [CryptoMCPServer.get_ticker, CacheManager.set_ticker, hc]
    | error e => simp [CryptoMCPServer.get_ticker, hc]

theorem get_ohlcv_frame (fetch : Except Fault (List OHLCVData)) (now : ℚ)
    (req : HistoricalDataRequest) (s : CryptoMCPServer) :
    (CryptoMCPServer.get_ohlcv fetch now req s).state.cache.ticker_cache
      = s.cache.ticker_cache ∧
    (CryptoMCPServer.get_ohlcv fetch now req s).state.cache.orderbook_cache
      = s.cache.orderbook_cache := by
  cases hc : CacheManager.get_ohlcv now req.exchange.value req.symbol
      req.timeframe.value req.limit s.cache with
  | some v =>
    by_cases he : v = []
    · subst he
      cases fetch with
      | ok t => simp [CryptoMCPServer.get_ohlcv, CacheManager.set_ohlcv, hc]
      | error e => simp [CryptoMCPServer.get_ohlcv, hc]
    · simp [CryptoMCPServer.get_ohlcv, hc, he]
  | none =>
    cases fetch with
    | ok t => simp [CryptoMCPServer.get_ohlcv, CacheManager.set_ohlcv, hc]
    | error e => simp [CryptoMCPServer.get_ohlcv, hc]

theorem safe_get_ticker_fst (fetch : Except Fault TickerData) (now : ℚ)
    (req : MarketDataRequest) (s : CryptoMCPServer) :
    (CryptoMCPServer.safe_get_ticker fetch now req s).1 =
      (CryptoMCPServer.get_ticker fetch now req s).state := by
  unfold CryptoMCPServer.safe_get_ticker
  cases hg : CryptoMCPServer.get_ticker fetch now req s with
  | mk st res n => cases res <;> rfl

theorem gather_orderbook_frame (oracle : Exchange → Except Fault TickerData)
    (now : ℚ) :
    ∀ (reqs : List MarketDataRequest) (s : CryptoMCPServer),
      ((gatherTickers oracle now reqs s).1).cache.orderbook_cache
        = s.cache.orderbook_cache := by
  intro reqs
  induction reqs with
  | nil => intro s; rfl
  | cons r rest ih =>
    intro s
    have hsafe : (CryptoMCPServer.safe_get_ticker (oracle r.exchange) now r
        s).1.cache.orderbook_cache = s.cache.orderbook_cache := by
      rw [safe_get_ticker_fst]
      exact (get_ticker_frame (oracle r.exchange) now r s).2
    simp only [gatherTickers]
    cases ho : (CryptoMCPServer.safe_get_ticker (oracle r.exchange) now r
        s).2 <;>
      simp [ih, hsafe]

/-- Claim C6: every single-exchange read (ticker, OHLCV, order book)
increments the total-request counter by exactly one, hit or miss, and
increments the total-error counter by exactly one exactly when the call
fails; N upstream faults across N uncached single-exchange ticker calls
increase both counters by exactly N. -/
theorem counters_spec :
    (∀ fetch now req (s : CryptoMCPServer),
      (CryptoMCPServer.get_ticker fetch now req s).state.request_count
        = s.request_count + 1 ∧
      (∀ t, (CryptoMCPServer.get_ticker fetch now req s).result = .ok t →
        (CryptoMCPServer.get_ticker fetch now req s).state.error_count
          = s.error_count) ∧
      (∀ e, (CryptoMCPServer.get_ticker fetch now req s).result = .error e →
        (CryptoMCPServer.get_ticker fetch now req s).state.error_count
          = s.error_count + 1)) ∧
    (∀ fetch now req (s : CryptoMCPServer),
      (CryptoMCPServer.get_ohlcv fetch now req s).state.request_count
        = s.request_count + 1 ∧
      (∀ t, (CryptoMCPServer.get_ohlcv fetch now req s).result = .ok t →
        (CryptoMCPServer.get_ohlcv fetch now req s).state.error_count
          = s.error_count) ∧
      (∀ e, (CryptoMCPServer.get_ohlcv fetch now req s).result = .error e →
        (CryptoMCPServer.get_ohlcv fetch now req s).state.error_count
          = s.error_count + 1)) ∧
    (∀ fetch lim req (s : CryptoMCPServer),
      (CryptoMCPServer.get_orderbook fetch lim req s).state.request_count
        = s.request_count + 1 ∧
      (∀ t, (CryptoMCPServer.get_orderbook fetch lim req s).result = .ok t →
        (CryptoMCPServer.get_orderbook fetch lim req s).state.error_count
          = s.error_count) ∧
      (∀ e, (CryptoMCPServer.get_orderbook fetch lim req s).result
          = .error e →
        (CryptoMCPServer.get_orderbook fetch lim req s).state.error_count
          = s.error_count + 1)) ∧
    (∀ now req (faults : List Fault) (s : CryptoMCPServer),
      CacheManager.get_ticker now req.exchange.value req.symbol s.cache
        = none →
      (iterateFailingTickers now req faults s).request_count
        = s.request_count + faults.length ∧
      (iterateFailingTickers now req faults s).error_count
        = s.error_count + faults.length) := by
  refine ⟨?_, ?_, ?_, ?_⟩
  · intro fetch now req s
    cases hc : CacheManager.get_ticker now req.exchange.value req.symbol
        s.cache with
    | some v => simp [CryptoMCPServer.get_ticker, hc]
    | none =>
      cases fetch with
      | ok t => simp [CryptoMCPServer.get_ticker, hc]
      | error e => simp [CryptoMCPServer.get_ticker, hc]
  · intro fetch now req s
    cases hc : CacheManager.get_ohlcv now req.exchange.value req.symbol
        req.timeframe.value req.limit s.cache with
    | some v =>
      by_cases he : v = []
      · subst he
        cases fetch with
        | ok t => simp [CryptoMCPServer.get_ohlcv, hc]
        | error e => simp [CryptoMCPServer.get_ohlcv, hc]
      · simp [CryptoMCPServer.get_ohlcv, hc, he]
    | none =>
      cases fetch with
      | ok t => simp [CryptoMCPServer.get_ohlcv, hc]
      | error e => simp [CryptoMCPServer.get_ohlcv, hc]
  · intro fetch lim req s
    cases fetch with
    | ok t => simp [CryptoMCPServer.get_orderbook]
    | error e => simp [CryptoMCPServer.get_orderbook]
  · intro now req faults
    induction faults with
    | nil => intro s hmiss; simp [iterateFailingTickers]
    | cons e rest ih =>
      intro s hmiss
      have hstep : (CryptoMCPServer.get_ticker (.error e) now req s).state =
          ⟨s.cache, s.request_count + 1, s.error_count + 1⟩ := by
        simp [CryptoMCPServer.get_ticker, hmiss]
      have hmiss' : CacheManager.get_ticker now req.exchange.value
          req.symbol (⟨s.cache, s.request_count + 1, s.error_count + 1⟩ :
            CryptoMCPServer).cache = none := hmiss
      obtain ⟨h₁, h₂⟩ :=
        ih (⟨s.cache, s.request_count + 1, s.error_count + 1⟩ :
          CryptoMCPServer) hmiss'
      constructor
      · simp only [iterateFailingTickers, hstep, h₁, List.length_cons]
        omega
      · simp only [iterateFailingTickers, hstep, h₂, List.length_cons]
        omega

/-- Witness for C6: a faulting uncached ticker call from the initial
state increments both counters by one, and three consecutive faulting
calls increment the error counter by three. -/
theorem counters_spec_witness :
    (CryptoMCPServer.get_ticker (.error .networkError) 0
      ⟨"BTC/USDT", Exchange.binance⟩
      CryptoMCPServer.init).state.request_count
      = CryptoMCPServer.init.request_count + 1 ∧
    (CryptoMCPServer.get_ticker (.error .networkError) 0
      ⟨"BTC/USDT", Exchange.binance⟩
      CryptoMCPServer.init).state.error_count
      = CryptoMCPServer.init.error_count + 1 ∧
    (iterateFailingTickers 0 ⟨"BTC/USDT", Exchange.binance⟩
      [.networkError, .exchangeError, .unexpectedError]
      CryptoMCPServer.init).error_count
      = CryptoMCPServer.init.error_count + 3 :=
  ⟨(counters_spec.1 (.error .networkError) 0 ⟨"BTC/USDT", Exchange.binance⟩
      CryptoMCPServer.init).1,
   (counters_spec.1 (.error .networkError) 0 ⟨"BTC/USDT", Exchange.binance⟩
      CryptoMCPServer.init).2.2 Fault.networkError rfl,
   (counters_spec.2.2.2 0 ⟨"BTC/USDT", Exchange.binance⟩
      [.networkError, .exchangeError, .unexpectedError]
      CryptoMCPServer.init rfl).2⟩

/-- Claim C9: `get_orderbook` neither reads nor writes any cache (its
post-state carries the caller's caches unchanged) and performs exactly
one upstream fetch on every call; moreover no engine operation ever
adds an entry to the order-book cache category, so an empty order-book
cache stays empty under every engine operation. -/
theorem orderbook_never_cached :
    (∀ fetch lim req (s : CryptoMCPServer),
      (CryptoMCPServer.get_orderbook fetch lim req s).state.cache
        = s.cache ∧
      (CryptoMCPServer.get_orderbook fetch lim req s).upstreamCalls = 1) ∧
    (∀ (op : EngineOp) (s : CryptoMCPServer),
      (EngineOp.apply op s).cache.orderbook_cache.entries
          = s.cache.orderbook_cache.entries ∨
        (EngineOp.apply op s).cache.orderbook_cache.entries = []) ∧
    (∀ (op : EngineOp) (s : CryptoMCPServer),
      s.cache.orderbook_cache.entries = [] →
      (EngineOp.apply op s).cache.orderbook_cache.entries = []) := by
  have hob : ∀ fetch lim req (s : CryptoMCPServer),
      (CryptoMCPServer.get_orderbook fetch lim req s).state.cache
        = s.cache := by
    intro fetch lim req s
    cases fetch <;> simp [CryptoMCPServer.get_orderbook]
  have hop : ∀ (op : EngineOp) (s : CryptoMCPServer),
      (EngineOp.apply op s).cache.orderbook_cache.entries
          = s.cache.orderbook_cache.entries ∨
        (EngineOp.apply op s).cache.orderbook_cache.entries = [] := by
    intro op s
    cases op with
    | ticker fetch now req =>
      exact Or.inl (congrArg TTLCache.entries
        (get_ticker_frame fetch now req s).2)
    | ohlcv fetch now req =>
      exact Or.inl (congrArg TTLCache.entries
        (get_ohlcv_frame fetch now req s).2)
    | orderbook fetch lim req =>
      exact Or.inl (congrArg (fun c => c.orderbook_cache.entries)
        (hob fetch lim req s))
    | multi oracle now symbol exchanges =>
      simp only [EngineOp.apply, CryptoMCPServer.get_multi_exchange_ticker]
      cases hb : buildRequests symbol exchanges with
      | error e => exact Or.inl rfl
      | ok reqs =>
        exact Or.inl (congrArg TTLCache.entries
          (gather_orderbook_frame oracle now reqs s))
    | stats fetch now req =>
      simp only [EngineOp.apply, CryptoMCPServer.get_price_statistics]
      cases hg : CryptoMCPServer.get_ohlcv fetch now req s with
      | mk st res n =>
        have := (get_ohlcv_frame fetch now req s).2
        rw [hg] at this
        cases res <;> exact Or.inl (congrArg TTLCache.entries this)
    | clearCache => exact Or.inr rfl
  refine ⟨fun fetch lim req s => ⟨hob fetch lim req s, ?_⟩, hop, ?_⟩
  · cases fetch <;> rfl
  · intro op s h
    rcases hop op s with h' | h'
    · rw [h', h]
    · exact h'

/-- Witness for C9: applying a ticker operation to the initial state
(whose order-book cache is empty) leaves the order-book cache empty. -/
theorem orderbook_never_cached_witness :
    (EngineOp.apply
      (.ticker (.ok ⟨"BTC/USDT", "binance", 0, 50000, 49999, 50001, 51000,
        49000, 1000, none⟩) 0 ⟨"BTC/USDT", Exchange.binance⟩)
      CryptoMCPServer.init).cache.orderbook_cache.entries = [] :=
  orderbook_never_cached.2.2
    (.ticker (.ok ⟨"BTC/USDT", "binance", 0, 50000, 49999, 50001, 51000,
      49000, 1000, none⟩) 0 ⟨"BTC/USDT", Exchange.binance⟩)
    CryptoMCPServer.init rfl

theorem foldl_max_init_le (xs : List ℚ) (a : ℚ) : a ≤ xs.foldl max a := by
  induction xs generalizing a with
  | nil => exact le_refl a
  | cons x xs ih =>
    rw [List.foldl_cons]
    exact le_trans (le_max_left a x) (ih (max a x))

theorem foldl_max_mem (xs : List ℚ) (a : ℚ) :
    xs.foldl max a = a ∨ xs.foldl max a ∈ xs := by
  induction xs generalizing a with
  | nil => exact Or.inl rfl
  | cons x xs ih =>
    rw [List.foldl_cons]
    rcases ih (max a x) with h | h
    · rcases max_choice a x with hm | hm
      · exact Or.inl (by rw [h, hm])
      · exact Or.inr (by rw [h, hm]; exact List.mem_cons_self x xs)
    · exact Or.inr (List.mem_cons_of_mem x h)

theorem le_foldl_max (xs : List ℚ) (a : ℚ) :
    ∀ p ∈ xs, p ≤ xs.foldl max a := by
  induction xs generalizing a with
  | nil => intro p hp; cases hp
  | cons x xs ih =>
    intro p hp
    rw [List.foldl_cons]
    rcases List.mem_cons.mp hp with rfl | hp
    · exact le_trans (le_max_right a p) (foldl_max_init_le xs (max a p))
    · exact ih (max a x) p hp

theorem foldl_min_init_le (xs : List ℚ) (a : ℚ) : xs.foldl min a ≤ a := by
  induction xs generalizing a with
  | nil => exact le_refl a
  | cons x xs ih =>
    rw [List.foldl_cons]
    exact le_trans (ih (min a x)) (min_le_left a x)

theorem foldl_min_mem (xs : List ℚ) (a : ℚ) :
    xs.foldl min a = a ∨ xs.foldl min a ∈ xs := by
  induction xs generalizing a with
  | nil => exact Or.inl rfl
  | cons x xs ih =>
    rw [List.foldl_cons]
    rcases ih (min a x) with h | h
    · rcases min_choice a x with hm | hm
      · exact Or.inl (by rw [h, hm])
      · exact Or.inr (by rw [h, hm]; exact List.mem_cons_self x xs)
    · exact Or.inr (List.mem_cons_of_mem x h)

theorem foldl_min_le (xs : List ℚ) (a : ℚ) :
    ∀ p ∈ xs, xs.foldl min a ≤ p := by
  induction xs generalizing a with
  | nil => intro p hp; cases hp
  | cons x xs ih =>
    intro p hp
    rw [List.foldl_cons]
    rcases List.mem_cons.mp hp with rfl | hp
    · exact le_trans (foldl_min_init_le xs (min a p)) (min_le_right a p)
    · exact ih (min a x) p hp

theorem pyMax_mem {l : List ℚ} (h : l ≠ []) : pyMax l ∈ l := by
  cases l with
  | nil => exact absurd rfl h
  | cons x xs =>
    show List.foldl max x xs ∈ x :: xs
    rcases foldl_max_mem xs x with h1 | h1
    · rw [h1]; exact List.mem_cons_self x xs
    · exact List.mem_cons_of_mem x h1

theorem le_pyMax {l : List ℚ} (p : ℚ) (hp : p ∈ l) : p ≤ pyMax l := by
  cases l with
  | nil => cases hp
  | cons x xs =>
    show p ≤ List.foldl max x xs
    rcases List.mem_cons.mp hp with rfl | hp
    · exact foldl_max_init_le xs p
    · exact le_foldl_max xs x p hp

theorem pyMin_mem {l : List ℚ} (h : l ≠ []) : pyMin l ∈ l := by
  cases l with
  | nil => exact absurd rfl h
  | cons x xs =>
    show List.foldl min x xs ∈ x :: xs
    rcases foldl_min_mem xs x with h1 | h1
    · rw [h1]; exact List.mem_cons_self x xs
    · exact List.mem_cons_of_mem x h1

theorem pyMin_le {l : List ℚ} (p : ℚ) (hp : p ∈ l) : pyMin l ≤ p := by
  cases l with
  | nil => cases hp
  | cons x xs =>
    show List.foldl min x xs ≤ p
    rcases List.mem_cons.mp hp with rfl | hp
    · exact foldl_min_init_le xs p
    · exact foldl_min_le xs x p hp

theorem volatility_eq_popStdDev (prices : List ℚ) (h : prices ≠ []) :
    _calculate_volatility prices = popStdDev prices := by
  have hmean : ((prices.sum / (prices.length : ℚ) : ℚ) : ℝ)
      = (prices.map (fun q : ℚ => (q : ℝ))).sum / (prices.length : ℝ) := by
    push_cast [Rat.cast_list_sum]
    rfl
  unfold _calculate_volatility popStdDev
  by_cases hlen : prices.length < 2
  · have hlp : 0 < prices.length := List.length_pos.mpr h
    have h1 : prices.length = 1 := by omega
    obtain ⟨p, rfl⟩ := List.length_eq_one.mp h1
    rw [if_pos hlen]
    simp
  · rw [if_neg hlen]
    congr 1
    unfold varianceOf
    rw [Rat.cast_div, Rat.cast_list_sum, List.map_map]
    have hlen' : (((prices.length : ℕ) : ℚ) : ℝ) = ((prices.length : ℕ) : ℝ) := by
      push_cast
      rfl
    rw [hlen']
    congr 1
    congr 1
    apply List.map_congr_left
    intro p _
    simp only [Function.comp_apply, Function.comp]
    push_cast [hmean]
    ring

/-- Claim C4 (amended): on a non-empty OHLCV sequence whose first close
is non-zero the statistics are: current price = last close;
highest/lowest = max/min of closes; average = the arithmetic mean of
closes; price change = last − first close; percent change =
(last − first)/first·100; total and average volume = sum and mean of
volumes; volatility = the population standard deviation
`sqrt(mean((x − mean)²))` of the closes (no Bessel correction, also for
a single-candle series where the code's early return of `0.0` agrees
with it). A zero first close instead raises `ZeroDivisionError` in the
percent-change division, so no statistics are returned there. -/
theorem price_statistics_spec (ohlcv : List OHLCVData)
    (req : HistoricalDataRequest) (first last : ℚ)
    (hfirst : (ohlcv.map (fun c => c.close)).head? = some first)
    (hlast : (ohlcv.map (fun c => c.close)).getLast? = some last)
    (hfz : first ≠ 0) :
    (∃ stats, computeStats ohlcv req = .ok stats) ∧
    ∀ stats, computeStats ohlcv req = .ok stats →
      stats.period = ohlcv.length ∧
      stats.current_price = last ∧
      (stats.highest_price ∈ ohlcv.map (fun c => c.close) ∧
        ∀ p ∈ ohlcv.map (fun c => c.close), p ≤ stats.highest_price) ∧
      (stats.lowest_price ∈ ohlcv.map (fun c => c.close) ∧
        ∀ p ∈ ohlcv.map (fun c => c.close), stats.lowest_price ≤ p) ∧
      stats.average_price
        = (ohlcv.map (fun c => c.close)).sum / (ohlcv.length : ℚ) ∧
      stats.price_change = last - first ∧
      stats.price_change_percent = (last - first) / first * 100 ∧
      stats.total_volume = (ohlcv.map (fun c => c.volume)).sum ∧
      stats.average_volume
        = (ohlcv.map (fun c => c.volume)).sum / (ohlcv.length : ℚ) ∧
      stats.volatility = popStdDev (ohlcv.map (fun c => c.close)) := by
  have hne : ohlcv ≠ [] := by
    intro hnil
    rw [hnil] at hfirst
    simp at hfirst
  have hpne : ohlcv.map (fun c => c.close) ≠ [] := by
    simpa using hne
  have hemp : ohlcv.isEmpty = false := by
    cases ohlcv with
    | nil => exact absurd rfl hne
    | cons c t => rfl
  have hhz : ¬ pyHead (ohlcv.map (fun c => c.close)) = 0 := by
    unfold pyHead
    rw [hfirst]
    exact hfz
  constructor
  · unfold computeStats
    rw [if_neg (by simp [hemp]), if_neg hhz]
    exact ⟨_, rfl⟩
  · intro stats hok
    unfold computeStats at hok
    rw [if_neg (by simp [hemp]), if_neg hhz] at hok
    injection hok with h
    subst h
    refine ⟨rfl, ?_, ?_, ?_, ?_, ?_, ?_, rfl, ?_, ?_⟩
    · show pyLast (ohlcv.map (fun c => c.close)) = last
      unfold pyLast
      rw [hlast]
    · exact ⟨pyMax_mem hpne, fun p hp => le_pyMax p hp⟩
    · exact ⟨pyMin_mem hpne, fun p hp => pyMin_le p hp⟩
    · show (ohlcv.map (fun c => c.close)).sum
          / (((ohlcv.map (fun c => c.close)).length : ℕ) : ℚ)
        = (ohlcv.map (fun c => c.close)).sum / (ohlcv.length : ℚ)
      rw [List.length_map]
    · show pyLast (ohlcv.map (fun c => c.close))
          - pyHead (ohlcv.map (fun c => c.close)) = last - first
      unfold pyLast pyHead
      rw [hlast, hfirst]
    · show (pyLast (ohlcv.map (fun c => c.close))
          - pyHead (ohlcv.map (fun c => c.close)))
          / pyHead (ohlcv.map (fun c => c.close)) * 100
        = (last - first) / first * 100
      unfold pyLast pyHead
      rw [hlast, hfirst]
    · show (ohlcv.map (fun c => c.volume)).sum
          / (((ohlcv.map (fun c => c.volume)).length : ℕ) : ℚ)
        = (ohlcv.map (fun c => c.volume)).sum / (ohlcv.length : ℚ)
      rw [List.length_map]
    · show _calculate_volatility (ohlcv.map (fun c => c.close))
        = popStdDev (ohlcv.map (fun c => c.close))
      exact volatility_eq_popStdDev _ hpne

/-- Witness for C4: for closes `[100, 105, 103, 107, 104]` the mean is
`103.8` and the percent change is `4`, with the statistics produced by
`computeStats`. -/
theorem price_statistics_spec_witness :
    ∃ stats, computeStats
        [⟨0, 0, 0, 0, 100, 10⟩, ⟨1, 0, 0, 0, 105, 20⟩,
         ⟨2, 0, 0, 0, 103, 30⟩, ⟨3, 0, 0, 0, 107, 40⟩,
         ⟨4, 0, 0, 0, 104, 50⟩]
        ⟨"BTC/USDT", Exchange.binance, TimeFrame.h1, 100⟩ = .ok stats ∧
      stats.current_price = 104 ∧
      stats.average_price = 103.8 ∧
      stats.price_change_percent = 4 := by
  obtain ⟨⟨stats, hok⟩, hfields⟩ :=
    price_statistics_spec
      [⟨0, 0, 0, 0, 100, 10⟩, ⟨1, 0, 0, 0, 105, 20⟩,
       ⟨2, 0, 0, 0, 103, 30⟩, ⟨3, 0, 0, 0, 107, 40⟩,
       ⟨4, 0, 0, 0, 104, 50⟩]
      ⟨"BTC/USDT", Exchange.binance, TimeFrame.h1, 100⟩ 100 104 rfl rfl
      (by norm_num)
  obtain ⟨hper, hcur, hhi, hlo, havg, hch, hpct, htv, hav, hvol⟩ :=
    hfields stats hok
  refine ⟨stats, hok, hcur, ?_, ?_⟩
  · rw [havg]
    norm_num
  · rw [hpct]
    norm_num

/-- Claim C5: statistics on an empty fetched OHLCV sequence fail with
the `NoData` error (`"No data available for statistics"`) before any
arithmetic is performed, so no division-by-zero artifact can arise. -/
theorem empty_ohlcv_no_data (req : HistoricalDataRequest) :
    computeStats [] req = .error "No data available for statistics" ∧
    (∀ fetch now (s : CryptoMCPServer),
      (CryptoMCPServer.get_ohlcv fetch now req s).result = .ok [] →
      (CryptoMCPServer.get_price_statistics fetch now req s).2
        = .error "No data available for statistics") := by
  constructor
  · rfl
  · intro fetch now s h
    unfold CryptoMCPServer.get_price_statistics
    cases hg : CryptoMCPServer.get_ohlcv fetch now req s with
    | mk st res n =>
      rw [hg] at h
      simp only at h
      cases res with
      | ok data =>
        have hdata : data = [] := by
          injection h
        subst hdata
        rfl
      | error e => cases h

/-- Witness for C5: an upstream fetch returning an empty candle list
makes the statistics operation fail with the `NoData` message. -/
theorem empty_ohlcv_no_data_witness :
    (CryptoMCPServer.get_price_statistics (.ok ([] : List OHLCVData)) 0
      ⟨"BTC/USDT", Exchange.binance, TimeFrame.h1, 100⟩
      CryptoMCPServer.init).2
      = .error "No data available for statistics" :=
  (empty_ohlcv_no_data
    ⟨"BTC/USDT", Exchange.binance, TimeFrame.h1, 100⟩).2
    (.ok []) 0 CryptoMCPServer.init rfl

theorem safe_get_ticker_result (fetch : Except Fault TickerData) (now : ℚ)
    (req : MarketDataRequest) (s : CryptoMCPServer) :
    ((CryptoMCPServer.safe_get_ticker fetch now req s).2).isSome =
      ((CacheManager.get_ticker now req.exchange.value req.symbol
          s.cache).isSome ||
        (match fetch with
         | .ok _ => true
         | .error _ => false)) := by
  unfold CryptoMCPServer.safe_get_ticker
  cases hc : CacheManager.get_ticker now req.exchange.value req.symbol
      s.cache with
  | some v => simp [CryptoMCPServer.get_ticker, hc]
  | none =>
    cases fetch with
    | ok t => simp [CryptoMCPServer.get_ticker, hc]
    | error e => simp [CryptoMCPServer.get_ticker, hc]

theorem buildRequests_ok (symbol : String) (hvalid : '/' ∈ symbol.data) :
    ∀ exchanges : List Exchange,
      buildRequests symbol exchanges =
        .ok (exchanges.map
          (fun ex => (⟨strUpper symbol, ex⟩ : MarketDataRequest))) := by
  intro exchanges
  induction exchanges with
  | nil => rfl
  | cons ex rest ih =>
    simp only [buildRequests, MarketDataRequest.build, validate_symbol]
    rw [if_neg (not_not_intro hvalid)]
    rw [ih]
    rfl

theorem gather_results (oracle : Exchange → Except Fault TickerData)
    (now : ℚ) (symu : String) :
    ∀ (exchanges : List Exchange) (s : CryptoMCPServer),
      ∃ results : List (Option TickerData),
        results.length = exchanges.length ∧
        (gatherTickers oracle now
            (exchanges.map (fun ex => (⟨symu, ex⟩ : MarketDataRequest)))
            s).2
          = (exchanges.zip results).filterMap
              (fun p => p.2.map (fun t => (p.1.value, t))) ∧
        ∀ p ∈ exchanges.zip results,
          (∀ t, oracle p.1 = .ok t → p.2.isSome = true) ∧
          (p.2 = none → ∃ e, oracle p.1 = .error e) := by
  intro exchanges
  induction exchanges with
  | nil =>
    intro s
    exact ⟨[], rfl, rfl, by intro p hp; cases hp⟩
  | cons ex rest ih =>
    intro s
    obtain ⟨results, hlen, hpairs, hprop⟩ :=
      ih (CryptoMCPServer.safe_get_ticker (oracle ex) now ⟨symu, ex⟩ s).1
    refine ⟨(CryptoMCPServer.safe_get_ticker (oracle ex) now
      ⟨symu, ex⟩ s).2 :: results, by simp [hlen], ?_, ?_⟩
    · simp only [List.map_cons, gatherTickers, List.zip_cons_cons,
        List.filterMap_cons]
      cases hr : (CryptoMCPServer.safe_get_ticker (oracle ex) now
          ⟨symu, ex⟩ s).2 with
      | some t => simp [hpairs]
      | none => simp [hpairs]
    · intro p hp
      rcases List.mem_cons.mp hp with heq | hp'
      · subst heq
        have hres := safe_get_ticker_result (oracle ex) now ⟨symu, ex⟩ s
        constructor
        · intro t hok
          rw [hres, hok]
          simp
        · intro hnone
          cases hok : oracle ex with
          | ok t =>
            rw [hnone, hok] at hres
            simp at hres
          | error e => exact ⟨e, rfl⟩
      · exact hprop p hp'

/-- Claim C1, counterexample: a symbol that fails validation makes
`get_multi_exchange_ticker` abort with the validation error instead of
returning a (possibly empty) mapping — the per-exchange
`MarketDataRequest` construction happens outside `_safe_get_ticker`,
so this failure is not absorbed. -/
theorem multi_ticker_aborts_on_invalid_symbol :
    CryptoMCPServer.get_multi_exchange_ticker
        (fun _ => .error Fault.networkError) 0 "BTCUSDT"
        [Exchange.binance, Exchange.kraken] CryptoMCPServer.init
      = .error "Symbol must be in format BASE/QUOTE (e.g., BTC/USDT)" :=
  rfl

/-- Claim C1 (amended): for every symbol that passes validation
(contains a `/`), every requested exchange list and every engine
state, `get_multi_exchange_ticker` never aborts: it returns a mapping
containing exactly the `(exchange id, ticker)` pairs of the
sub-queries that yielded a ticker. Every sub-query whose upstream
fetch succeeds is present; a sub-query absent from the result had its
upstream fault absorbed locally; the result's keys all come from the
request set and may form any subset down to empty. A symbol that fails
validation instead aborts the whole operation at request
construction. -/
theorem multi_ticker_partial_failure
    (oracle : Exchange → Except Fault TickerData) (now : ℚ)
    (symbol : String) (exchanges : List Exchange) (s : CryptoMCPServer)
    (hvalid : '/' ∈ symbol.data) :
    ∃ s' pairs,
      CryptoMCPServer.get_multi_exchange_ticker oracle now symbol
          exchanges s = .ok (s', pairs) ∧
      (∀ k ∈ pairs.map Prod.fst, ∃ ex ∈ exchanges, k = ex.value) ∧
      ∃ results : List (Option TickerData),
        results.length = exchanges.length ∧
        pairs = (exchanges.zip results).filterMap
          (fun p => p.2.map (fun t => (p.1.value, t))) ∧
        ∀ p ∈ exchanges.zip results,
          (∀ t, oracle p.1 = .ok t → p.2.isSome = true) ∧
          (p.2 = none → ∃ e, oracle p.1 = .error e) := by
  unfold CryptoMCPServer.get_multi_exchange_ticker
  rw [buildRequests_ok symbol hvalid exchanges]
  obtain ⟨results, hlen, hpairs, hprop⟩ :=
    gather_results oracle now (strUpper symbol) exchanges s
  refine ⟨_, _, rfl, ?_, results, hlen, hpairs, hprop⟩
  intro k hk
  rw [hpairs] at hk
  obtain ⟨pair, hpair, hfst⟩ := List.mem_map.mp hk
  obtain ⟨p, hp, hfp⟩ := List.mem_filterMap.mp hpair
  obtain ⟨t, _, hpt⟩ := Option.map_eq_some'.mp hfp
  exact ⟨p.1, (List.of_mem_zip hp).1, by rw [← hfst, ← hpt]⟩

/-- Witness for C1: querying `BTC/USDT` on `[binance, kraken]` from the
initial state, with binance succeeding upstream and kraken faulting,
yields a mapping built from exactly the sub-queries that returned a
ticker, every successful upstream present and every absent exchange
accounted for by a fault. -/
theorem multi_ticker_partial_failure_witness :
    ∃ s' pairs,
      CryptoMCPServer.get_multi_exchange_ticker
          (fun ex => match ex with
            | Exchange.binance =>
              .ok ⟨"BTC/USDT", "binance", 0, 50000, 49999, 50001, 51000,
                49000, 1000, none⟩
            | _ => .error Fault.networkError) 0 "BTC/USDT"
          [Exchange.binance, Exchange.kraken] CryptoMCPServer.init
        = .ok (s', pairs) ∧
      (∀ k ∈ pairs.map Prod.fst,
        ∃ ex ∈ [Exchange.binance, Exchange.kraken], k = ex.value) ∧
      ∃ results : List (Option TickerData),
        results.length = [Exchange.binance, Exchange.kraken].length ∧
        pairs = ([Exchange.binance, Exchange.kraken].zip
            results).filterMap
          (fun p => p.2.map (fun t => (p.1.value, t))) ∧
        ∀ p ∈ [Exchange.binance, Exchange.kraken].zip results,
          (∀ t, (fun ex => match ex with
            | Exchange.binance =>
              .ok ⟨"BTC/USDT", "binance", 0, 50000, 49999, 50001, 51000,
                49000, 1000, none⟩
            | _ => .error Fault.networkError : Exchange →
              Except Fault TickerData) p.1 = .ok t →
            p.2.isSome = true) ∧
          (p.2 = none → ∃ e, (fun ex => match ex with
            | Exchange.binance =>
              .ok ⟨"BTC/USDT", "binance", 0, 50000, 49999, 50001, 51000,
                49000, 1000, none⟩
            | _ => .error Fault.networkError : Exchange →
              Except Fault TickerData) p.1 = .error e) :=
  multi_ticker_partial_failure
    (fun ex => match ex with
      | Exchange.binance =>
        .ok ⟨"BTC/USDT", "binance", 0, 50000, 49999, 50001, 51000,
          49000, 1000, none⟩
      | _ => .error Fault.networkError) 0 "BTC/USDT"
    [Exchange.binance, Exchange.kraken] CryptoMCPServer.init
    (by decide)

/-- Claim C10: for every query and loaded market catalog,
`search_symbols` returns at most 50 symbols, lexicographically sorted
ascending, each a catalog symbol containing the uppercased query as a
substring — precisely the first 50 (in sorted order) of all matching
catalog symbols. -/
theorem search_symbols_spec (query : String) (markets : List String) :
    (search_symbols query markets).length ≤ 50 ∧
    List.Sorted (· ≤ ·) (search_symbols query markets) ∧
    (∀ x ∈ search_symbols query markets,
      x ∈ markets ∧ strIn (strUpper query) x = true) ∧
    ∃ full,
      List.Perm full
        (markets.filter (fun sym => strIn (strUpper query) sym)) ∧
      List.Sorted (· ≤ ·) full ∧
      search_symbols query markets = full.take 50 := by
  refine ⟨?_, ?_, ?_, ?_⟩
  · exact List.length_take_le 50 _
  · exact List.Pairwise.sublist (List.take_sublist 50 _)
      (List.sorted_insertionSort _ _)
  · intro x hx
    have hx' : x ∈ List.insertionSort (fun a b : String => a ≤ b)
        (markets.filter (fun sym => strIn (strUpper query) sym)) :=
      List.take_subset 50 _ hx
    have hx'' := (List.mem_insertionSort _).mp hx'
    exact ⟨(List.mem_filter.mp hx'').1, (List.mem_filter.mp hx'').2⟩
  · exact ⟨List.insertionSort (fun a b : String => a ≤ b)
      (markets.filter (fun sym => strIn (strUpper query) sym)),
      List.perm_insertionSort _ _, List.sorted_insertionSort _ _, rfl⟩

/-- Witness for C10: searching `btc` in a two-symbol catalog returns
sorted matches within the 50-element bound. -/
theorem search_symbols_spec_witness :
    (search_symbols "btc" ["ETH/USDT", "BTC/USDT"]).length ≤ 50 ∧
    List.Sorted (· ≤ ·) (search_symbols "btc" ["ETH/USDT", "BTC/USDT"]) ∧
    (∀ x ∈ search_symbols "btc" ["ETH/USDT", "BTC/USDT"],
      x ∈ ["ETH/USDT", "BTC/USDT"] ∧
        strIn (strUpper "btc") x = true) ∧
    ∃ full,
      List.Perm full
        (["ETH/USDT", "BTC/USDT"].filter
          (fun sym => strIn (strUpper "btc") sym)) ∧
      List.Sorted (· ≤ ·) full ∧
      search_symbols "btc" ["ETH/USDT", "BTC/USDT"] = full.take 50 :=
  search_symbols_spec "btc" ["ETH/USDT", "BTC/USDT"]

/-- Claim C2, counterexample: a cached OHLCV entry that is present and
unexpired but holds the *empty* candle list is treated as a miss by the
source's truthiness test `if cached:`, so the read performs an upstream
fetch (1 call, returning the refetched data) instead of replaying the
cached value with no fetch. -/
theorem ohlcv_empty_cached_refetches :
    CacheManager.get_ohlcv 5 "binance" "BTC/USDT" "1h" 100
        (CacheManager.set_ohlcv 0 "binance" "BTC/USDT" "1h" 100 []
          CacheManager.init) = some [] ∧
    (CryptoMCPServer.get_ohlcv (.ok [⟨0, 0, 0, 0, 100, 10⟩]) 5
        ⟨"BTC/USDT", Exchange.binance, TimeFrame.h1, 100⟩
        ⟨CacheManager.set_ohlcv 0 "binance" "BTC/USDT" "1h" 100 []
          CacheManager.init, 0, 0⟩).upstreamCalls = 1 ∧
    (CryptoMCPServer.get_ohlcv (.ok [⟨0, 0, 0, 0, 100, 10⟩]) 5
        ⟨"BTC/USDT", Exchange.binance, TimeFrame.h1, 100⟩
        ⟨CacheManager.set_ohlcv 0 "binance" "BTC/USDT" "1h" 100 []
          CacheManager.init, 0, 0⟩).result = .ok [⟨0, 0, 0, 0, 100, 10⟩]
    := by
  have hget : CacheManager.get_ohlcv 5 "binance" "BTC/USDT" "1h" 100
      (CacheManager.set_ohlcv 0 "binance" "BTC/USDT" "1h" 100 []
        CacheManager.init) = some [] := by
    unfold CacheManager.get_ohlcv CacheManager.set_ohlcv
    simp only [TTLCache.get_set_same]
    norm_num [CacheManager.init]
  refine ⟨hget, ?_, ?_⟩
  · simp [CryptoMCPServer.get_ohlcv, Exchange.value, TimeFrame.value, hget]
  · simp [CryptoMCPServer.get_ohlcv, Exchange.value, TimeFrame.value, hget]

/-- Claim C4, counterexample: a non-empty series whose first close is
`0` makes the percent-change division raise `ZeroDivisionError` in the
source instead of returning the statistics the claim promises for
every non-empty sequence. -/
theorem price_statistics_zero_first_close_error :
    computeStats [⟨0, 0, 0, 0, 0, 10⟩]
        ⟨"BTC/USDT", Exchange.binance, TimeFrame.h1, 100⟩
      = .error "float division by zero" := by
  unfold computeStats
  norm_num [pyHead]
